import Mathlib

/-!
Verification of the FASM-to-BELs decode/resolve pipeline of
quicklogic/common/utils/fasm2bels.py (class Fasm2Bels).

Shallow-embedding conventions used throughout this file:

* Python strings are embedded as Lean values of type List Char; a literal
  such as "BEL0".toList denotes the corresponding Python string.
* Python dicts (including defaultdicts) are embedded as association lists
  that preserve insertion order: a dict assignment that overwrites an
  existing key keeps its position, a fresh key is appended at the end.
  This matches CPython dict iteration-order semantics.
* Python sets that the code only iterates over or tests membership in are
  embedded as lists of their elements.
* Fallible code (a failing assert, a KeyError, an IndexError, an unbound
  local variable, a ValueError from tuple unpacking) is embedded with
  Except DecodeError; each constructor below records which fatal condition
  of the source it stands for.
* The unbounded recursion of expand_mux and the unguarded while-loop of
  resolve_hops are embedded with an explicit fuel parameter; running out
  of fuel is distinguishable from every result the Python code can return.
-/

/-- Grid location; embeds the Loc namedtuple (fields x, y). Coordinates are
integers because hop offsets may be negative. -/
structure Loc where
  x : Int
  y : Int
  deriving DecidableEq, Repr

/-- The two routing-feature address families of parse_routing_line. -/
inductive RouteType where
  | HIGHWAY
  | STREET
  deriving DecidableEq, Repr

/-- Embeds the RouteEntry namedtuple (typ, stage_id, switch_id, mux_id,
sel_id). Stage and switch indices are Int because the STREET decoding
subtracts 1 from a textual digit (a textual 0 yields -1 in Python);
mux_id and sel_id are parsed directly from digit runs and are non-negative. -/
structure RouteEntry where
  typ : RouteType
  stage_id : Int
  switch_id : Int
  mux_id : Nat
  sel_id : Nat
  deriving DecidableEq, Repr

/-- Embeds the Feature namedtuple (loc, typ, signature, value). -/
structure Feature where
  loc : Loc
  typ : List Char
  signature : List Char
  value : Int
  deriving DecidableEq, Repr

/-- Fatal conditions of the decode pipeline. The first three carry the
names of the spec error taxonomy; the comments record the concrete Python
mechanism in fasm2bels.py that raises them. -/
inductive DecodeError where
  /-- A routing signature matches neither address pattern: the local
  variable typ is then unbound when building the RouteEntry
  (parse_routing_line, lines 205-233). -/
  | unsupportedFeatureFormat
  /-- The assert in decode_switchbox (lines 297-298) fires: a second
  feature addresses an already-set (stage, switch, mux) entry. -/
  | conflictingMultiplexerAssignment
  /-- The assert in expand_mux (line 340) fires: an internal pin has no
  upstream connection in the topology. -/
  | unresolvedInternalPin
  /-- A KeyError from a dict lookup (mux_sel, stages, switches, muxes,
  inputs, vpr_switchbox_types). -/
  | missingKey
  /-- A ValueError from unpacking signature.split into two names when the
  signature has no separator. -/
  | valueError
  /-- An IndexError from out_pin.locs being empty in decode_switchbox. -/
  | indexError
  /-- Fuel exhaustion of the embedding; stands for unbounded recursion
  depth, which the Python code never reports as a value. -/
  | outOfFuel
  deriving DecidableEq, Repr

/-- Association-list lookup: first binding of the key, none if absent.
Embeds a Python dict read (a read of a missing key is a KeyError at the
call sites that use it that way). -/
def alookup {κ α : Type} [DecidableEq κ] : List (κ × α) → κ → Option α
  | [], _ => none
  | (k, v) :: rest, key => if k = key then some v else alookup rest key

/-- Association-list update of an existing key in place; identity when the
key is absent. Embeds a Python dict assignment to a key already present. -/
def aset {κ α : Type} [DecidableEq κ] : List (κ × α) → κ → α → List (κ × α)
  | [], _, _ => []
  | (k, v) :: rest, key, nv =>
    if k = key then (k, nv) :: rest else (k, v) :: aset rest key nv

/-- Remove a prefix: some rest when the second list starts with the first,
none otherwise. Together with the digit-run helpers below this embeds the
anchored regular-expression matching of parse_routing_line. -/
def stripPfx : List Char → List Char → Option (List Char)
  | [], s => some s
  | _ :: _, [] => none
  | p :: ps, c :: cs => if p = c then stripPfx ps cs else none

/-- Longest digit-character run at the front, and the remainder. -/
def takeDigits : List Char → List Char × List Char
  | [] => ([], [])
  | c :: cs =>
    if c.isDigit then
      let r := takeDigits cs
      (c :: r.1, r.2)
    else ([], c :: cs)

/-- Numeric value of one digit character. -/
def digitVal (c : Char) : Nat := c.toNat - 48

/-- Digit character for a value below ten. -/
def dChar (a : Nat) : Char := Char.ofNat (48 + a)

/-- Numeric value of a digit run, most significant first; embeds Python
int() applied to a regex group of digits. -/
def digitsToNat (ds : List Char) : Nat :=
  ds.foldl (fun a c => a * 10 + digitVal c) 0

/-- Embeds the anchored regex of parse_routing_line for HIGHWAY features,
I_highway.IM([0-9]+).I_pg([0-9]+) with both ends anchored; yields the
textual switch and selector values. The regex digit groups are greedy and
are followed by non-digit literals, so greedy matching without
backtracking is exact. -/
def matchHighway (s : List Char) : Option (Nat × Nat) :=
  match stripPfx ("I_highway.IM".toList) s with
  | none => none
  | some r1 =>
    let d1 := takeDigits r1
    if d1.1 = [] then none
    else
      match stripPfx (".I_pg".toList) d1.2 with
      | none => none
      | some r2 =>
        let d2 := takeDigits r2
        if d2.1 = [] ∨ d2.2 ≠ [] then none
        else some (digitsToNat d1.1, digitsToNat d2.1)

/-- Embeds the anchored regex of parse_routing_line for STREET features,
I_street.Isb([0-9])([0-9]).I_M([0-9]+).I_pg([0-9]+); yields the textual
stage digit, switch digit, mux and selector values. -/
def matchStreet (s : List Char) : Option (Nat × Nat × Nat × Nat) :=
  match stripPfx ("I_street.Isb".toList) s with
  | none => none
  | some r1 =>
    match r1 with
    | a :: b :: r2 =>
      if a.isDigit ∧ b.isDigit then
        match stripPfx (".I_M".toList) r2 with
        | none => none
        | some r3 =>
          let dm := takeDigits r3
          if dm.1 = [] then none
          else
            match stripPfx (".I_pg".toList) dm.2 with
            | none => none
            | some r4 =>
              let dg := takeDigits r4
              if dg.1 = [] ∨ dg.2 ≠ [] then none
              else some (digitVal a, digitVal b, digitsToNat dm.1, digitsToNat dg.1)
      else none
    | _ => none

/-- Embeds parse_routing_line (lines 197-233) on one signature. The source
tries the HIGHWAY pattern, then the STREET pattern, the later STREET
assignments overriding; since no string starts with both I_highway and
I_street the two matches are mutually exclusive and testing STREET first
is equivalent. HIGHWAY fixes stage_id = 3 and mux_id = 0; STREET shifts
the 1-based textual stage and switch digits down by one. When neither
pattern matches, the local variable typ of the source is unbound and the
RouteEntry construction fails; this is the unsupported-feature-format
fatal error. -/
def parse_routing_line (sig : List Char) : Except DecodeError RouteEntry :=
  match matchStreet sig with
  | some (a, b, m, g) =>
    .ok { typ := .STREET, stage_id := (a : Int) - 1, switch_id := (b : Int) - 1,
          mux_id := m, sel_id := g }
  | none =>
    match matchHighway sig with
    | some (w, g) =>
      .ok { typ := .HIGHWAY, stage_id := 3, switch_id := (w : Int),
            mux_id := 0, sel_id := g }
    | none => .error .unsupportedFeatureFormat

/-- Append a RouteEntry under a location of the routingdata map,
creating the location entry at the end when absent (defaultdict(list)). -/
def rdAppend (rd : List (Loc × List RouteEntry)) (loc : Loc) (e : RouteEntry) :
    List (Loc × List RouteEntry) :=
  match rd with
  | [] => [(loc, [e])]
  | (l, es) :: rest =>
    if l = loc then (l, es ++ [e]) :: rest else (l, es) :: rdAppend rest loc e

/-- Embeds the routingdata update of parse_routing_line: on a recognized
signature the RouteEntry is appended at the feature location; on an
unrecognized signature the method raises before any entry is appended and
the run aborts. -/
def parse_routing_line_upd (rd : List (Loc × List RouteEntry)) (f : Feature) :
    Except DecodeError (List (Loc × List RouteEntry)) :=
  match parse_routing_line f.signature with
  | .ok e => .ok (rdAppend rd f.loc e)
  | .error e => .error e

deriving instance DecidableEq for Except

example : parse_routing_line ("I_street.Isb12.I_M0.I_pg3".toList) =
    .ok { typ := .STREET, stage_id := 0, switch_id := 1, mux_id := 0, sel_id := 3 } := by
  decide

example : parse_routing_line ("I_highway.IM2.I_pg5".toList) =
    .ok { typ := .HIGHWAY, stage_id := 3, switch_id := 2, mux_id := 0, sel_id := 5 } := by
  decide

example : parse_routing_line ("I_garbage.IM2".toList) =
    .error .unsupportedFeatureFormat := by decide

theorem stripPfx_append (p r : List Char) : stripPfx p (p ++ r) = some r := by
  induction p with
  | nil => rfl
  | cons c cs ih => simp [stripPfx, ih]

theorem takeDigits_stop (ds : List Char) (c : Char) (r : List Char)
    (hds : ∀ x ∈ ds, x.isDigit) (hc : ¬ c.isDigit = true) :
    takeDigits (ds ++ c :: r) = (ds, c :: r) := by
  induction ds with
  | nil => simp [takeDigits, hc]
  | cons d ds ih =>
    have hd : d.isDigit := hds d (by simp)
    have hrec : takeDigits (ds ++ c :: r) = (ds, c :: r) :=
      ih (fun x hx => hds x (by simp [hx]))
    simp [takeDigits, hd, hrec]

theorem takeDigits_all (ds : List Char) (hds : ∀ x ∈ ds, x.isDigit) :
    takeDigits ds = (ds, []) := by
  induction ds with
  | nil => rfl
  | cons d ds ih =>
    have hd : d.isDigit := hds d (by simp)
    have hrec : takeDigits ds = (ds, []) := ih (fun x hx => hds x (by simp [hx]))
    simp [takeDigits, hd, hrec]

theorem dChar_isDigit (a : Nat) (h : a < 10) : (dChar a).isDigit := by
  interval_cases a <;> decide

theorem digitVal_dChar (a : Nat) (h : a < 10) : digitVal (dChar a) = a := by
  interval_cases a <;> decide

/-- C5: the scenario signature I_street.Isb12.I_M0.I_pg3 decodes to a STREET
route entry with stage 0, switch 1, mux 0, selector 3; and in general every
signature of the STREET shape with single textual stage and switch digits
decodes those two with an offset of minus one while mux and selector digit
runs are parsed directly as non-negative integers. -/
theorem c5_street_decoding :
    (parse_routing_line ("I_street.Isb12.I_M0.I_pg3".toList) =
      .ok { typ := .STREET, stage_id := 0, switch_id := 1, mux_id := 0, sel_id := 3 })
    ∧ ∀ (a b : Nat) (ms gs : List Char), a < 10 → b < 10 →
        ms ≠ [] → gs ≠ [] → (∀ x ∈ ms, x.isDigit) → (∀ x ∈ gs, x.isDigit) →
        parse_routing_line ("I_street.Isb".toList ++ dChar a :: dChar b ::
            (".I_M".toList ++ (ms ++ (".I_pg".toList ++ gs)))) =
          .ok { typ := .STREET, stage_id := (a : Int) - 1, switch_id := (b : Int) - 1,
                mux_id := digitsToNat ms, sel_id := digitsToNat gs } := by
  constructor
  · decide
  · intro a b ms gs ha hb hmsne hgsne hdm hdg
    have hms : takeDigits (ms ++ '.' :: 'I' :: '_' :: 'p' :: 'g' :: gs) =
        (ms, '.' :: 'I' :: '_' :: 'p' :: 'g' :: gs) :=
      takeDigits_stop ms '.' ('I' :: '_' :: 'p' :: 'g' :: gs) hdm (by decide)
    have hgs2 : takeDigits gs = (gs, []) := takeDigits_all gs hdg
    simp [parse_routing_line, matchStreet, stripPfx, dChar_isDigit a ha,
      dChar_isDigit b hb, hms, hgs2, hmsne, hgsne, digitVal_dChar a ha,
      digitVal_dChar b hb]

theorem c5_street_decoding_witness :
    parse_routing_line ("I_street.Isb".toList ++ dChar 1 :: dChar 2 ::
        (".I_M".toList ++ (['0'] ++ (".I_pg".toList ++ ['3'])))) =
      .ok { typ := .STREET, stage_id := (1 : Int) - 1, switch_id := (2 : Int) - 1,
            mux_id := digitsToNat ['0'], sel_id := digitsToNat ['3'] } :=
  c5_street_decoding.2 1 2 ['0'] ['3'] (by decide) (by decide) (by decide) (by decide)
    (by decide) (by decide)

/-- C3: a ROUTING feature whose signature matches neither the HIGHWAY nor
the STREET pattern makes parse_routing_line fail with the fatal
unsupported-feature-format error, and no route entry is recorded for it:
the updated routingdata map is never produced. -/
theorem c3_unsupported_format (rd : List (Loc × List RouteEntry)) (f : Feature)
    (h1 : matchHighway f.signature = none) (h2 : matchStreet f.signature = none) :
    parse_routing_line_upd rd f = .error .unsupportedFeatureFormat := by
  simp [parse_routing_line_upd, parse_routing_line, h1, h2]

theorem c3_unsupported_format_witness :
    parse_routing_line_upd [] { loc := ⟨1, 2⟩, typ := ("ROUTING".toList),
                                signature := ("I_invalid.IM2".toList), value := 1 } =
      .error .unsupportedFeatureFormat :=
  c3_unsupported_format [] _ (by decide) (by decide)

/-- Substring test; embeds the Python in operator on strings. -/
def containsSub (needle : List Char) : List Char → Bool
  | [] => (stripPfx needle []).isSome
  | c :: cs => (stripPfx needle (c :: cs)).isSome || containsSub needle cs

/-- Fueled worker for replaceDel; the fuel is instantiated with the string
length, which suffices because every step consumes at least one character. -/
def replaceDelGo (needle : List Char) : Nat → List Char → List Char
  | _, [] => []
  | 0, s => s
  | Nat.succ fuel, c :: cs =>
    if needle = [] then c :: replaceDelGo needle fuel cs
    else
      match stripPfx needle (c :: cs) with
      | some rest => replaceDelGo needle fuel rest
      | none => c :: replaceDelGo needle fuel cs

/-- Embeds Python str.replace(needle, empty): every non-overlapping
occurrence of needle is deleted, scanning left to right. -/
def replaceDel (needle s : List Char) : List Char := replaceDelGo needle s.length s

/-- Embeds the inversion-marker normalization of parse_logic_line: a
setting containing ZINV. has every ZINV. occurrence removed; otherwise one
containing INV. has every INV. occurrence removed (the ZINV. test comes
first in the source because ZINV. contains INV. as a substring); otherwise
the setting is kept verbatim. -/
def stripInvMarkers (setting : List Char) : List Char :=
  if containsSub ("ZINV.".toList) setting then replaceDel ("ZINV.".toList) setting
  else if containsSub ("INV.".toList) setting then replaceDel ("INV.".toList) setting
  else setting

/-- Split on the first dot; none when no separator occurs, which embeds
the ValueError of unpacking split into exactly two names. -/
def splitFirstDot : List Char → Option (List Char × List Char)
  | [] => none
  | c :: cs =>
    if c = '.' then some ([], cs)
    else
      match splitFirstDot cs with
      | none => none
      | some p => some (c :: p.1, p.2)

/-- The belinversions structure: location to cell instance name to the
list of recorded setting names in observation order (defaultdict of
defaultdict of list). -/
abbrev BelMap := List (Loc × List (List Char × List (List Char)))

/-- Extend the binding of bn by vs inside one inner map, creating a
binding at the end when absent. -/
def innerExt (bn : List Char) (vs : List (List Char)) :
    List (List Char × List (List Char)) → List (List Char × List (List Char))
  | [] => [(bn, vs)]
  | (b, xs) :: rest =>
    if b = bn then (b, xs ++ vs) :: rest else (b, xs) :: innerExt bn vs rest

/-- Extend the setting list of instance bn at loc by vs, creating missing
nesting levels at the end; embeds the defaultdict access pattern
map[loc][bn].extend(vs) of the source. -/
def belExtend (m : BelMap) (loc : Loc) (bn : List Char) (vs : List (List Char)) : BelMap :=
  match m with
  | [] => [(loc, [(bn, vs)])]
  | (l, inner) :: rest =>
    if l = loc then (l, innerExt bn vs inner) :: rest
    else (l, inner) :: belExtend rest loc bn vs

/-- Observation of one inner binding with empty-list default. -/
def innerGet (inner : List (List Char × List (List Char))) (bn : List Char) :
    List (List Char) :=
  (alookup inner bn).getD []

/-- Observation of the nested map with empty-list default. -/
def belLookup (m : BelMap) (loc : Loc) (bn : List Char) : List (List Char) :=
  innerGet ((alookup m loc).getD []) bn

/-- Embeds parse_logic_line (lines 166-181): the signature splits on the
first separator into instance name and setting path; only a feature with
value 1 records anything; the recorded setting has its inversion marker
stripped and is appended at the feature location under the instance name. -/
def parse_logic_line (bel : BelMap) (f : Feature) : Except DecodeError BelMap :=
  match splitFirstDot f.signature with
  | none => .error .valueError
  | some (belname, setting) =>
    if f.value = 1 then .ok (belExtend bel f.loc belname [stripInvMarkers setting])
    else .ok bel

/-- Folds parse_logic_line over a feature list, aborting on the first
fatal error, the way the classifier loop of parse_fasm_lines does. -/
def parse_logic_lines (bel : BelMap) : List Feature → Except DecodeError BelMap
  | [] => .ok bel
  | f :: fs =>
    match parse_logic_line bel f with
    | .error e => .error e
    | .ok b2 => parse_logic_lines b2 fs

theorem innerGet_innerExt (inner : List (List Char × List (List Char)))
    (bn b2 : List Char) (vs : List (List Char)) :
    innerGet (innerExt bn vs inner) b2 =
      innerGet inner b2 ++ (if bn = b2 then vs else []) := by
  induction inner with
  | nil =>
    by_cases h : bn = b2 <;> simp [innerExt, innerGet, alookup, h]
  | cons p rest ih =>
    obtain ⟨b, xs⟩ := p
    by_cases hb : b = bn
    · subst hb
      by_cases h2 : b = b2 <;> simp [innerExt, innerGet, alookup, h2]
    · by_cases h2 : b = b2
      · subst h2
        have hbn : ¬ bn = b := fun hh => hb hh.symm
        simp [innerExt, innerGet, alookup, hb, hbn]
      · simpa [innerExt, innerGet, alookup, hb, h2] using ih

theorem belLookup_belExtend (m : BelMap) (loc : Loc) (bn : List Char)
    (vs : List (List Char)) (l2 : Loc) (b2 : List Char) :
    belLookup (belExtend m loc bn vs) l2 b2 =
      belLookup m l2 b2 ++ (if loc = l2 ∧ bn = b2 then vs else []) := by
  induction m with
  | nil =>
    by_cases h1 : loc = l2
    · subst h1
      by_cases h2 : bn = b2 <;>
        simp [belExtend, belLookup, alookup, innerGet_innerExt, innerGet, h2]
    · simp [belExtend, belLookup, alookup, h1, innerGet]
  | cons p rest ih =>
    obtain ⟨l, inner⟩ := p
    by_cases hl : l = loc
    · subst hl
      by_cases h2 : l = l2
      · subst h2
        simp [belExtend, belLookup, alookup, innerGet_innerExt]
      · simp [belExtend, belLookup, alookup, h2]
    · by_cases h2 : l = l2
      · subst h2
        have hne : ¬ loc = l := fun hh => hl hh.symm
        simp [belExtend, belLookup, alookup, hl, hne]
      · simpa [belExtend, belLookup, alookup, hl, h2] using ih

/-- C6: the two scenario features LOGIC.BEL0.ZINV.TA1 and LOGIC.BEL0.QCK,
both of value 1 at one location, register under instance BEL0 as TA1 and
QCK in observation order; and in general, for a feature whose signature
splits on the first separator, a setting is recorded if and only if the
value is 1, the recorded setting is the path with its inversion marker
stripped, appended at the feature location under the instance name, and no
other entry of the map changes. -/
theorem c6_logic_settings :
    (parse_logic_lines []
        [⟨⟨1, 1⟩, ("LOGIC".toList), ("BEL0.ZINV.TA1".toList), 1⟩,
         ⟨⟨1, 1⟩, ("LOGIC".toList), ("BEL0.QCK".toList), 1⟩] =
      .ok [(⟨1, 1⟩, [(("BEL0".toList), [("TA1".toList), ("QCK".toList)])])])
    ∧ ∀ (bel : BelMap) (f : Feature) (bn st : List Char),
        splitFirstDot f.signature = some (bn, st) → ∀ (l2 : Loc) (b2 : List Char),
        Except.map (fun b => belLookup b l2 b2) (parse_logic_line bel f) =
          .ok (belLookup bel l2 b2 ++
            (if f.loc = l2 ∧ bn = b2 ∧ f.value = 1 then [stripInvMarkers st] else [])) := by
  constructor
  · rfl
  · intro bel f bn st h l2 b2
    by_cases hv : f.value = 1
    · simp [parse_logic_line, h, hv, Except.map, belLookup_belExtend]
    · simp [parse_logic_line, h, hv, Except.map]

theorem c6_logic_settings_witness :
    Except.map (fun b => belLookup b ⟨1, 1⟩ ("BEL0".toList))
        (parse_logic_line [] ⟨⟨1, 1⟩, ("LOGIC".toList), ("BEL0.ZINV.TA1".toList), 1⟩) =
      .ok (belLookup [] ⟨1, 1⟩ ("BEL0".toList) ++
        (if (⟨1, 1⟩ : Loc) = ⟨1, 1⟩ ∧ ("BEL0".toList) = ("BEL0".toList) ∧ (1 : Int) = 1
         then [stripInvMarkers ("ZINV.TA1".toList)] else [])) :=
  c6_logic_settings.2 [] ⟨⟨1, 1⟩, ("LOGIC".toList), ("BEL0.ZINV.TA1".toList), 1⟩
    ("BEL0".toList) ("ZINV.TA1".toList) (by decide) ⟨1, 1⟩ ("BEL0".toList)

/-- Direction of a switchbox pin. -/
inductive PinDirection where
  | INPUT
  | OUTPUT
  deriving DecidableEq, Repr

/-- Embeds the SwitchboxPinLoc namedtuple. -/
structure SwitchboxPinLoc where
  stage_id : Int
  switch_id : Int
  mux_id : Int
  pin_id : Int
  pin_direction : PinDirection
  deriving DecidableEq, Repr

/-- A mux input pin: name is an external pin name, or none for an internal
pin that needs upstream resolution through the connection list. -/
structure SbPin where
  name : Option (List Char)
  deriving DecidableEq, Repr

/-- A multiplexer: ordered map from pin id to input pin. -/
structure SbMux where
  inputs : List (Int × SbPin)
  deriving DecidableEq, Repr

/-- A switch: ordered map from mux id to mux. -/
structure SbSwitch where
  muxes : List (Int × SbMux)
  deriving DecidableEq, Repr

/-- A stage: ordered map from switch id to switch. -/
structure SbStage where
  switches : List (Int × SbSwitch)
  deriving DecidableEq, Repr

/-- An intra-switchbox connection between two pin locations. -/
structure SbConnection where
  src : SwitchboxPinLoc
  dst : SwitchboxPinLoc
  deriving DecidableEq, Repr

/-- An output pin of the switchbox: the exposed name and the internal
locations; locs[0] is the canonical internal output mux location. -/
structure SbOutputPin where
  name : List Char
  locs : List SwitchboxPinLoc
  deriving DecidableEq, Repr

/-- The switchbox topology as decode_switchbox reads it: the nested stage,
switch and mux dicts, the connection list and the output pins (the values
of the outputs dict in insertion order). -/
structure Switchbox where
  stages : List (Int × SbStage)
  connections : List SbConnection
  outputs : List SbOutputPin
  deriving DecidableEq, Repr

/-- Key triple of the selection table. -/
abbrev MuxKey := Int × Int × Int

/-- The selection table mux_sel of decode_switchbox, flattened from the
nested dicts of the source to triple keys; a triple is present exactly
when all three nested lookups succeed, so the flattening preserves the
KeyError behaviour. Every entry starts unset. -/
def initTable (sb : Switchbox) : List (MuxKey × Option Int) :=
  sb.stages.flatMap (fun sp =>
    sp.2.switches.flatMap (fun wp =>
      wp.2.muxes.map (fun mp => (((sp.1, wp.1, mp.1) : MuxKey), (none : Option Int)))))

/-- The selection-table key addressed by one routing feature. -/
def trip (f : RouteEntry) : MuxKey := (f.stage_id, f.switch_id, (f.mux_id : Int))

/-- Embeds the feature loop of decode_switchbox (lines 296-300): each
feature writes its selector at its (stage, switch, mux) key; a missing key
is a KeyError; a key that is already set makes the assert fire before the
write, the fatal conflicting-multiplexer-assignment error, so a selector
is never silently overwritten. -/
def assignFeatures (tbl : List (MuxKey × Option Int)) :
    List RouteEntry → Except DecodeError (List (MuxKey × Option Int))
  | [] => .ok tbl
  | f :: fs =>
    match alookup tbl (trip f) with
    | none => .error .missingKey
    | some (some _) => .error .conflictingMultiplexerAssignment
    | some none => assignFeatures (aset tbl (trip f) (some (f.sel_id : Int))) fs

/-- First non-none expansion among the connections ending at a pin, in
list order; embeds the upstream loop of expand_mux over conn_by_dst (a
Python set, embedded here as the sublist of the connection list in
declaration order). -/
def firstSome (g : SbConnection → Except DecodeError (Option (List Char))) :
    List SbConnection → Except DecodeError (Option (List Char))
  | [] => .ok none
  | c :: cs =>
    match g c with
    | .error e => .error e
    | .ok (some n) => .ok (some n)
    | .ok none => firstSome g cs

/-- Embeds expand_mux of decode_switchbox (lines 302-347) with explicit
recursion fuel. An unset selection yields ok none (undriven, not an
error); a named pin yields its name; an internal pin follows every
connection ending at it and takes the first non-none expansion; an
internal pin with no incoming connection is the fatal
unresolved-internal-pin assert of the source. -/
def expandMux (sb : Switchbox) (tbl : List (MuxKey × Option Int)) :
    Nat → SwitchboxPinLoc → Except DecodeError (Option (List Char))
  | 0, _ => .error .outOfFuel
  | Nat.succ fuel, out_loc =>
    match alookup tbl (out_loc.stage_id, out_loc.switch_id, out_loc.mux_id) with
    | none => .error .missingKey
    | some none => .ok none
    | some (some sel) =>
      match alookup sb.stages out_loc.stage_id with
      | none => .error .missingKey
      | some stage =>
        match alookup stage.switches out_loc.switch_id with
        | none => .error .missingKey
        | some sw =>
          match alookup sw.muxes out_loc.mux_id with
          | none => .error .missingKey
          | some mux =>
            match alookup mux.inputs sel with
            | none => .error .missingKey
            | some pin =>
              match pin.name with
              | some n => .ok (some n)
              | none =>
                let inp_loc : SwitchboxPinLoc :=
                  { stage_id := out_loc.stage_id, switch_id := out_loc.switch_id,
                    mux_id := out_loc.mux_id, pin_id := sel,
                    pin_direction := .INPUT }
                match sb.connections.filter (fun c => c.dst = inp_loc) with
                | [] => .error .unresolvedInternalPin
                | c :: cs => firstSome (fun c2 => expandMux sb tbl fuel c2.src) (c :: cs)

/-- Embeds the output loop of decode_switchbox (lines 349-356): one route
per declared output pin in declaration order, resolved from locs[0]. -/
def decodeOutputs (sb : Switchbox) (tbl : List (MuxKey × Option Int)) (fuel : Nat) :
    List SbOutputPin → Except DecodeError (List (List Char × Option (List Char)))
  | [] => .ok []
  | o :: os =>
    match o.locs with
    | [] => .error .indexError
    | l :: _ =>
      match expandMux sb tbl fuel l with
      | .error e => .error e
      | .ok v =>
        match decodeOutputs sb tbl fuel os with
        | .error e => .error e
        | .ok rest => .ok ((o.name, v) :: rest)

/-- Embeds decode_switchbox (lines 266-356): build the selection table,
write every observed feature into it, then resolve each declared output. -/
def decode_switchbox (sb : Switchbox) (features : List RouteEntry) (fuel : Nat) :
    Except DecodeError (List (List Char × Option (List Char))) :=
  match assignFeatures (initTable sb) features with
  | .error e => .error e
  | .ok tbl => decodeOutputs sb tbl fuel sb.outputs

theorem alookup_mem {κ α : Type} [DecidableEq κ] (m : List (κ × α)) (key : κ) (v : α)
    (h : alookup m key = some v) : (key, v) ∈ m := by
  induction m with
  | nil => simp [alookup] at h
  | cons p rest ih =>
    obtain ⟨k0, v0⟩ := p
    by_cases h0 : k0 = key
    · subst h0
      simp [alookup] at h
      simp [h]
    · simp only [alookup, if_neg h0] at h
      exact List.mem_cons_of_mem _ (ih h)

theorem alookup_aset {κ α : Type} [DecidableEq κ] (m : List (κ × α)) (k : κ) (v : α)
    (j : κ) :
    alookup (aset m k v) j =
      if j = k then (alookup m k).map (fun _ => v) else alookup m j := by
  induction m with
  | nil => by_cases h : j = k <;> simp [aset, alookup, h]
  | cons p rest ih =>
    obtain ⟨k0, v0⟩ := p
    by_cases h0 : k0 = k
    · subst h0
      by_cases hj : j = k0
      · subst hj
        simp [aset, alookup, Option.map]
      · have hj2 : ¬ k0 = j := fun hh => hj hh.symm
        simp [aset, alookup, hj, hj2]
    · by_cases hj0 : k0 = j
      · subst hj0
        simp [aset, alookup, h0]
      · simp only [aset, if_neg h0, alookup, if_neg hj0]
        exact ih

theorem alookup_aset_isSome {κ α : Type} [DecidableEq κ] (m : List (κ × α)) (k : κ)
    (v : α) (j : κ) : (alookup (aset m k v) j).isSome = (alookup m j).isSome := by
  rw [alookup_aset]
  by_cases h : j = k
  · subst h
    cases alookup m j <;> simp
  · simp [h]

theorem initTable_none (sb : Switchbox) (k : MuxKey) (v : Option Int)
    (h : alookup (initTable sb) k = some v) : v = none := by
  have hm := alookup_mem _ _ _ h
  simp only [initTable, List.mem_flatMap, List.mem_map] at hm
  obtain ⟨sp, hsp, wp, hwp, mp, hmp, heq⟩ := hm
  injection heq with h1 h2
  exact h2.symm

theorem assign_conflict_iff (fs : List RouteEntry) (tbl : List (MuxKey × Option Int))
    (h : ∀ f ∈ fs, (alookup tbl (trip f)).isSome) :
    assignFeatures tbl fs = .error .conflictingMultiplexerAssignment ↔
      ¬ ((fs.map trip).Nodup ∧ ∀ f ∈ fs, alookup tbl (trip f) = some none) := by
  induction fs generalizing tbl with
  | nil => simp [assignFeatures]
  | cons f fs ih =>
    have hf : (alookup tbl (trip f)).isSome := h f (by simp)
    rcases hl : alookup tbl (trip f) with _ | ov
    · rw [hl] at hf
      simp at hf
    · rcases ov with _ | sel
      · have h2 : ∀ g ∈ fs,
            (alookup (aset tbl (trip f) (some (f.sel_id : Int))) (trip g)).isSome := by
          intro g hg
          rw [alookup_aset_isSome]
          exact h g (List.mem_cons_of_mem _ hg)
        have key : (∀ g ∈ fs,
              alookup (aset tbl (trip f) (some (f.sel_id : Int))) (trip g) = some none) ↔
            ((∀ g ∈ fs, ¬ trip g = trip f) ∧
              ∀ g ∈ fs, alookup tbl (trip g) = some none) := by
          constructor
          · intro hh
            constructor
            · intro g hg he
              have hx := hh g hg
              rw [alookup_aset, if_pos he, hl] at hx
              simp at hx
            · intro g hg
              have hx := hh g hg
              rw [alookup_aset] at hx
              by_cases he : trip g = trip f
              · rw [if_pos he, hl] at hx
                simp at hx
              · rwa [if_neg he] at hx
          · rintro ⟨ha, hb⟩ g hg
            rw [alookup_aset, if_neg (ha g hg)]
            exact hb g hg
        simp only [assignFeatures, hl]
        rw [ih _ h2]
        apply not_congr
        rw [List.map_cons, List.nodup_cons]
        constructor
        · rintro ⟨hnd, hall⟩
          refine ⟨⟨?_, hnd⟩, ?_⟩
          · intro hmem
            rw [List.mem_map] at hmem
            obtain ⟨g, hg, he⟩ := hmem
            exact ((key.mp hall).1 g hg) he
          · intro g hg
            rcases List.mem_cons.mp hg with hgf | hgm
            · subst hgf
              exact hl
            · exact (key.mp hall).2 g hgm
        · rintro ⟨⟨hnm, hnd⟩, hall⟩
          refine ⟨hnd, key.mpr ⟨?_, fun g hg => hall g (List.mem_cons_of_mem _ hg)⟩⟩
          intro g hg he
          exact hnm (List.mem_map.mpr ⟨g, hg, he⟩)
      · simp only [assignFeatures, hl]
        simp [List.forall_mem_cons, hl]

theorem firstSome_ne_conflict (g : SbConnection → Except DecodeError (Option (List Char)))
    (cs : List SbConnection)
    (hg : ∀ c ∈ cs, g c ≠ .error .conflictingMultiplexerAssignment) :
    firstSome g cs ≠ .error .conflictingMultiplexerAssignment := by
  induction cs with
  | nil => simp [firstSome]
  | cons c cs ih =>
    have h1 := hg c (by simp)
    rcases he : g c with e | v
    · have hr : firstSome g (c :: cs) = .error e := by simp [firstSome, he]
      rw [hr]
      intro hc
      injection hc with h2
      exact h1 (by rw [he, h2])
    · rcases v with _ | n
      · have hr : firstSome g (c :: cs) = firstSome g cs := by simp [firstSome, he]
        rw [hr]
        exact ih (fun c2 hc2 => hg c2 (List.mem_cons_of_mem _ hc2))
      · have hr : firstSome g (c :: cs) = .ok (some n) := by simp [firstSome, he]
        rw [hr]
        simp

theorem expandMux_ne_conflict (sb : Switchbox) (tbl : List (MuxKey × Option Int)) :
    ∀ (fuel : Nat) (l : SwitchboxPinLoc),
      expandMux sb tbl fuel l ≠ .error .conflictingMultiplexerAssignment := by
  intro fuel
  induction fuel with
  | zero =>
    intro l
    simp [expandMux]
  | succ fuel ih =>
    intro l hc
    simp only [expandMux] at hc
    repeat' split at hc
    all_goals
      first
        | simp at hc
        | exact firstSome_ne_conflict _ _ (fun c2 hc2 => ih c2.src) hc

theorem decodeOutputs_ne_conflict (sb : Switchbox) (tbl : List (MuxKey × Option Int))
    (fuel : Nat) :
    ∀ os : List SbOutputPin,
      decodeOutputs sb tbl fuel os ≠ .error .conflictingMultiplexerAssignment := by
  intro os
  induction os with
  | nil => simp [decodeOutputs]
  | cons o os ih =>
    rcases hlocs : o.locs with _ | ⟨l, ls⟩
    · have hr : decodeOutputs sb tbl fuel (o :: os) = .error .indexError := by
        simp [decodeOutputs, hlocs]
      rw [hr]
      simp
    · rcases he : expandMux sb tbl fuel l with e | v
      · have hr : decodeOutputs sb tbl fuel (o :: os) = .error e := by
          simp [decodeOutputs, hlocs, he]
        rw [hr]
        intro hc
        injection hc with h2
        exact expandMux_ne_conflict sb tbl fuel l (by rw [he, h2])
      · rcases hrec : decodeOutputs sb tbl fuel os with e2 | rest
        · have hr : decodeOutputs sb tbl fuel (o :: os) = .error e2 := by
            simp [decodeOutputs, hlocs, he, hrec]
          rw [hr]
          intro hc
          injection hc with h2
          exact ih (by rw [hrec, h2])
        · have hr : decodeOutputs sb tbl fuel (o :: os) = .ok ((o.name, v) :: rest) := by
            simp [decodeOutputs, hlocs, he, hrec]
          rw [hr]
          simp

/-- C2: with every observed feature addressing a key of the selection
table, decode_switchbox returns the fatal conflicting-multiplexer
assignment error exactly when two features address the same
(stage, switch, mux) triple; a feature set with pairwise distinct triples
never raises it, and a selector is never silently overwritten because the
error is raised instead of performing the second write. -/
theorem c2_conflicting_mux (sb : Switchbox) (fs : List RouteEntry) (fuel : Nat)
    (h : ∀ f ∈ fs, (alookup (initTable sb) (trip f)).isSome) :
    decode_switchbox sb fs fuel = .error .conflictingMultiplexerAssignment ↔
      ¬ (fs.map trip).Nodup := by
  have hnone : ∀ f ∈ fs, alookup (initTable sb) (trip f) = some none := by
    intro f hf
    have h1 := h f hf
    rcases he : alookup (initTable sb) (trip f) with _ | v
    · rw [he] at h1
      simp at h1
    · have hv := initTable_none sb _ v he
      subst hv
      rfl
  have hiff := assign_conflict_iff fs (initTable sb) h
  cases ha : assignFeatures (initTable sb) fs with
  | error e =>
    have hd : decode_switchbox sb fs fuel = .error e := by
      simp [decode_switchbox, ha]
    rw [hd]
    constructor
    · intro hh
      injection hh with h2
      subst h2
      have hr := hiff.mp ha
      intro hnd
      exact hr ⟨hnd, hnone⟩
    · intro hnd
      have hcc := hiff.mpr (fun hcc2 => hnd hcc2.1)
      rw [ha] at hcc
      injection hcc with h2
      rw [h2]
  | ok tbl =>
    have hd : decode_switchbox sb fs fuel = decodeOutputs sb tbl fuel sb.outputs := by
      simp [decode_switchbox, ha]
    rw [hd]
    constructor
    · intro hh
      exact absurd hh (decodeOutputs_ne_conflict sb tbl fuel sb.outputs)
    · intro hnd
      have hcc := hiff.mpr (fun hcc => hnd hcc.1)
      rw [ha] at hcc
      cases hcc

/-- A minimal one-mux switchbox used by the concrete witnesses. -/
def sbWitness : Switchbox :=
  { stages := [(0, { switches := [(0, { muxes :=
        [(0, { inputs := [(0, { name := some ("A".toList) }),
                          (1, { name := some ("B".toList) })] })] })] })],
    connections := [],
    outputs := [{ name := ("O".toList),
                  locs := [{ stage_id := 0, switch_id := 0, mux_id := 0, pin_id := 0,
                             pin_direction := .OUTPUT }] }] }

/-- Two features addressing the same mux triple with different selectors. -/
def fsConflict : List RouteEntry :=
  [{ typ := .STREET, stage_id := 0, switch_id := 0, mux_id := 0, sel_id := 3 },
   { typ := .STREET, stage_id := 0, switch_id := 0, mux_id := 0, sel_id := 5 }]

theorem c2_conflicting_mux_witness :
    decode_switchbox sbWitness fsConflict 1 = .error .conflictingMultiplexerAssignment :=
  (c2_conflicting_mux sbWitness fsConflict 1 (by decide)).mpr (by decide)

/-- Boolean well-formedness of one output pin: its location list is
nonempty and its head addresses a mux of the topology. -/
def outLocOk (sb : Switchbox) (o : SbOutputPin) : Bool :=
  match o.locs with
  | [] => false
  | l :: _ => (alookup (initTable sb) (l.stage_id, l.switch_id, l.mux_id)).isSome

/-- C4: decoding any switchbox against an empty feature set, with every
selection-table entry unset, is not an error: it returns exactly one
entry per declared output pin, in declaration order, each mapped to none
(undriven). The hypotheses are the topology well-formedness the source
assumes of its read-only device database. -/
theorem c4_empty_decode (sb : Switchbox) (fuel : Nat) (hfuel : 1 ≤ fuel)
    (houts : ∀ o ∈ sb.outputs, outLocOk sb o) :
    decode_switchbox sb [] fuel = .ok (sb.outputs.map (fun o => (o.name, none))) := by
  obtain ⟨fuel2, rfl⟩ : ∃ k, fuel = k + 1 := ⟨fuel - 1, by omega⟩
  have main : ∀ os : List SbOutputPin, (∀ o ∈ os, outLocOk sb o) →
      decodeOutputs sb (initTable sb) (fuel2 + 1) os =
        .ok (os.map (fun o => (o.name, none))) := by
    intro os
    induction os with
    | nil =>
      intro hos
      rfl
    | cons o os ih =>
      intro hos
      have ho := hos o (by simp)
      rcases hlocs : o.locs with _ | ⟨l, ls⟩
      · rw [outLocOk, hlocs] at ho
        simp at ho
      · rw [outLocOk, hlocs] at ho
        simp only [] at ho
        rcases he : alookup (initTable sb) (l.stage_id, l.switch_id, l.mux_id) with _ | v
        · rw [he] at ho
          simp at ho
        · have hv : v = none := initTable_none sb _ v he
          subst hv
          have hexp : expandMux sb (initTable sb) (fuel2 + 1) l = .ok none := by
            simp [expandMux, he]
          simp [decodeOutputs, hlocs, hexp,
            ih (fun o2 ho2 => hos o2 (List.mem_cons_of_mem _ ho2))]
  have hd : decode_switchbox sb [] (fuel2 + 1) =
      decodeOutputs sb (initTable sb) (fuel2 + 1) sb.outputs := by
    simp [decode_switchbox, assignFeatures]
  rw [hd, main sb.outputs houts]

theorem c4_empty_decode_witness :
    decode_switchbox sbWitness [] 1 =
      .ok (sbWitness.outputs.map (fun o => (o.name, none))) :=
  c4_empty_decode sbWitness 1 (by decide) (by decide)

/-- Test for the hop-wire name pattern of process_switchbox (line 376);
the regex [VH][0-9][LRBT][0-9] is matched at the start of the name only,
so only the first four characters matter. -/
def isHopWireName (k : List Char) : Bool :=
  match k with
  | v :: d :: sd :: n :: _ =>
    (v == 'V' || v == 'H') && d.isDigit &&
      (sd == 'L' || sd == 'R' || sd == 'B' || sd == 'T') && n.isDigit
  | _ => false

/-- Ordered insert into one inner dict: an existing key keeps its position
and receives the new value, a fresh key is appended at the end. -/
def innerIns {α : Type} (k : List Char) (v : α) :
    List (List Char × α) → List (List Char × α)
  | [] => [(k, v)]
  | (k0, v0) :: rest =>
    if k0 = k then (k0, v) :: rest else (k0, v0) :: innerIns k v rest

/-- Ordered insert into a two-level map, creating the outer entry at the
end when absent; embeds the defaultdict-of-dict assignment
map[loc][k] = v of the pipeline. -/
def nestedIns {α : Type} (loc : Loc) (k : List Char) (v : α) :
    List (Loc × List (List Char × α)) → List (Loc × List (List Char × α))
  | [] => [(loc, [(k, v)])]
  | (l, inner) :: rest =>
    if l = loc then (l, innerIns k v inner) :: rest
    else (l, inner) :: nestedIns loc k v rest

/-- The designconnections map before hop resolution: location to sink pin
name to source name. -/
abbrev PreConnMap := List (Loc × List (List Char × List Char))

/-- The designhops map: location to hop-wire name to source name. -/
abbrev HopMap := List (Loc × List (List Char × List Char))

/-- Embeds the route partition of process_switchbox (lines 374-379): every
route with a non-none source is stored under the switchbox location,
either in designhops when the sink name matches the hop-wire pattern or in
designconnections otherwise. -/
def processRoutes (loc : Loc) (routes : List (List Char × Option (List Char)))
    (acc : PreConnMap × HopMap) : PreConnMap × HopMap :=
  routes.foldl (fun a kv =>
    match kv.2 with
    | none => a
    | some v =>
      if isHopWireName kv.1 then (a.1, nestedIns loc kv.1 v a.2)
      else (nestedIns loc kv.1 v a.1, a.2)) acc

/-- Lexicographic (x, y) order on locations. -/
def locLe (a b : Loc) : Bool :=
  decide (a.x < b.x) || (decide (a.x = b.x) && decide (a.y ≤ b.y))

/-- Ordered insert for the location sort. -/
def insertSorted (a : Loc) : List Loc → List Loc
  | [] => [a]
  | b :: bs => if locLe a b then a :: b :: bs else b :: insertSorted a bs

/-- Insertion sort by ascending (x, y), embedding the sorted call of
resolve_connections (line 405). -/
def sortLocs : List Loc → List Loc
  | [] => []
  | a :: as => insertSorted a (sortLocs as)

/-- Embeds the per-location body of resolve_connections (lines 405-416)
over an explicit location list: a location present in the switchbox grid
has its switchbox type resolved and decoded and its routes partitioned; a
location absent from the grid is skipped without any effect. -/
def resolveConnLoop (grid : List (Loc × List Char)) (types : List (List Char × Switchbox))
    (rd : List (Loc × List RouteEntry)) (fuel : Nat) :
    List Loc → PreConnMap × HopMap → Except DecodeError (PreConnMap × HopMap)
  | [], acc => .ok acc
  | loc :: ks, acc =>
    match alookup grid loc with
    | none => resolveConnLoop grid types rd fuel ks acc
    | some typ =>
      match alookup types typ with
      | none => .error .missingKey
      | some sb =>
        match decode_switchbox sb ((alookup rd loc).getD []) fuel with
        | .error e => .error e
        | .ok routes =>
          resolveConnLoop grid types rd fuel ks (processRoutes loc routes acc)

/-- Embeds resolve_connections (lines 402-417) up to, and not including,
its final resolve_hops call: routingdata keys are visited in ascending
(x, y) order and each grid location is decoded into the two maps. The hop
resolution that then consumes these maps is embedded separately below. -/
def resolve_connections (grid : List (Loc × List Char))
    (types : List (List Char × Switchbox)) (rd : List (Loc × List RouteEntry))
    (fuel : Nat) : Except DecodeError (PreConnMap × HopMap) :=
  resolveConnLoop grid types rd fuel (sortLocs (rd.map (fun p => p.1))) ([], [])

theorem resolveConnLoop_filter (grid : List (Loc × List Char))
    (types : List (List Char × Switchbox)) (rd : List (Loc × List RouteEntry))
    (fuel : Nat) :
    ∀ (ks : List Loc) (acc : PreConnMap × HopMap),
      resolveConnLoop grid types rd fuel ks acc =
        resolveConnLoop grid types rd fuel
          (ks.filter (fun l => (alookup grid l).isSome)) acc := by
  intro ks
  induction ks with
  | nil =>
    intro acc
    rfl
  | cons l ks ih =>
    intro acc
    rcases hg : alookup grid l with _ | typ
    · have hf : (l :: ks).filter (fun x => (alookup grid x).isSome) =
          ks.filter (fun x => (alookup grid x).isSome) := by
        simp [List.filter, hg]
      rw [hf]
      simp only [resolveConnLoop, hg]
      exact ih acc
    · have hf : (l :: ks).filter (fun x => (alookup grid x).isSome) =
          l :: ks.filter (fun x => (alookup grid x).isSome) := by
        simp [List.filter, hg]
      rw [hf]
      rcases hty : alookup types typ with _ | sb
      · simp [resolveConnLoop, hg, hty]
      · rcases hdec : decode_switchbox sb ((alookup rd l).getD []) fuel with e | routes
        · simp [resolveConnLoop, hg, hty, hdec]
        · simp only [resolveConnLoop, hg, hty, hdec]
          exact ih _

/-- Modelled from the spec: the directional offset encoded by the distance
digit and side letter of a hop-wire name; the side letter gives the axis
and sign (T north, B south, R east, L west) and the digit the distance, so
that the section 8 scenario, a north hop of one at (2,3), advances to
(2,4). -/
def sideOffset (d sd : Char) : Int × Int :=
  let n : Int := Int.ofNat (d.toNat - 48)
  if sd == 'T' then (0, n)
  else if sd == 'B' then (0, -n)
  else if sd == 'R' then (n, 0)
  else (-n, 0)

/-- Modelled from the spec: recognition of the hop-wire name shape of
section 4.3 (a direction letter, a numeric index, a side letter, a
numeric index) with its decoded offset; every other name has no offset. -/
def hopOffsetOf (s : List Char) : Option (Int × Int) :=
  match s with
  | [v, d, sd, n] =>
    if (v == 'V' || v == 'H') && d.isDigit &&
        (sd == 'L' || sd == 'R' || sd == 'B' || sd == 'T') && n.isDigit then
      some (sideOffset d sd)
    else none
  | _ => none

/-- Modelled from the spec: get_name_and_hop is imported by fasm2bels.py
from the connections module of this repository, whose source is not under
verification; sections 4.3, 4.4 and 8 of the spec fix its interface. It
returns the base name together with the decoded offset for a hop-wire
name, and the unchanged name with no offset for every other name; the base
name is the hop-wire name itself, which is what the designhops tables are
keyed by. -/
def get_name_and_hop (s : List Char) : List Char × Option (Int × Int) :=
  match hopOffsetOf s with
  | some off => (s, some off)
  | none => (s, none)

/-- State of the resolve_hops while-loop: current location, working name
and pending offset; no pending offset means the loop condition fails. -/
abbrev HopState := Loc × List Char × Option (Int × Int)

/-- A state on which the resolve_hops while-loop stops. -/
abbrev hopFinal (st : HopState) : Prop := st.2.2 = none

/-- One iteration of the resolve_hops while-loop body (lines 391-399):
advance the location by the pending offset; when the hop table at the new
location binds the working name, the bound value is re-decoded for a
further hop, otherwise the loop is about to stop with the moved location
and unchanged name. A final state is left unchanged. -/
def hopStep (hops : HopMap) (st : HopState) : HopState :=
  match st with
  | (tloc, n, none) => (tloc, n, none)
  | (tloc, n, some off) =>
    let t2 : Loc := ⟨tloc.x + off.1, tloc.y + off.2⟩
    match alookup hops t2 with
    | none => (t2, n, none)
    | some inner =>
      match alookup inner n with
      | some v => (t2, get_name_and_hop v)
      | none => (t2, n, none)

/-- Embeds the resolve_hops while-loop with explicit fuel: a final state
exits with its location and name regardless of fuel; the source loop
itself has no cycle or step-count guard, so running out of fuel (none)
embeds its nontermination. -/
def runHops (hops : HopMap) : Nat → HopState → Option (Loc × List Char)
  | _, (tloc, n, none) => some (tloc, n)
  | 0, (_, _, some _) => none
  | Nat.succ fuel, (tloc, n, some off) =>
    runHops hops fuel (hopStep hops (tloc, n, some off))

/-- Embeds the per-entry work of resolve_hops (lines 387-400): the stored
source name is decoded and the loop runs from the location of the entry;
on exit the entry is replaced by the absolute pair of the final location
and base name. -/
def resolveHopsEntry (hops : HopMap) (fuel : Nat) (loc : Loc) (source : List Char) :
    Option (Loc × List Char) :=
  runHops hops fuel (loc, get_name_and_hop source)

theorem hopStep_final (hops : HopMap) (st : HopState) (h : hopFinal st) :
    hopStep hops st = st := by
  obtain ⟨tloc, n, o⟩ := st
  cases o with
  | none => rfl
  | some off => simp [hopFinal] at h

/-- C7: a connection-map entry whose source name does not match the
hop-wire pattern (a hop chain of length zero) is rewritten by hop
resolution to the absolute pair of the entry location and the unchanged
source name, for every hop table and every fuel. -/
theorem c7_nonhop_identity (hops : HopMap) (fuel : Nat) (loc : Loc)
    (source : List Char) (h : hopOffsetOf source = none) :
    resolveHopsEntry hops fuel loc source = some (loc, source) := by
  rw [resolveHopsEntry, get_name_and_hop, h]
  cases fuel <;> rfl

theorem c7_nonhop_identity_witness :
    resolveHopsEntry [] 5 ⟨4, 7⟩ ("Q".toList) = some (⟨4, 7⟩, ("Q".toList)) :=
  c7_nonhop_identity [] 5 ⟨4, 7⟩ ("Q".toList) (by decide)

/-- Candidate states for every non-final successor of a non-final state:
a key location of the hop table paired with the re-decoding of a stored
value. -/
def hopCandidates (hops : HopMap) : List HopState :=
  (hops.map (fun p => p.1)).flatMap (fun l =>
    (hops.flatMap (fun p => p.2.map (fun q => q.2))).map
      (fun v => ((l, get_name_and_hop v) : HopState)))

theorem hopStep_mem_candidates (hops : HopMap) (st : HopState)
    (h1 : ¬ hopFinal st) (h2 : ¬ hopFinal (hopStep hops st)) :
    hopStep hops st ∈ hopCandidates hops := by
  obtain ⟨tloc, n, o⟩ := st
  rcases o with _ | off
  · exact absurd rfl h1
  · rcases ho : alookup hops ⟨tloc.x + off.1, tloc.y + off.2⟩ with _ | inner
    · exact absurd (show hopFinal (hopStep hops (tloc, n, some off)) by
        simp [hopStep, ho]) h2
    · rcases hv : alookup inner n with _ | v
      · exact absurd (show hopFinal (hopStep hops (tloc, n, some off)) by
          simp [hopStep, ho, hv]) h2
      · have hstep : hopStep hops (tloc, n, some off) =
            ((⟨tloc.x + off.1, tloc.y + off.2⟩ : Loc), get_name_and_hop v) := by
          simp [hopStep, ho, hv]
        rw [hstep]
        have hl : (⟨tloc.x + off.1, tloc.y + off.2⟩ : Loc) ∈ hops.map (fun p => p.1) :=
          List.mem_map.mpr ⟨_, alookup_mem _ _ _ ho, rfl⟩
        have hvv : v ∈ hops.flatMap (fun p => p.2.map (fun q => q.2)) :=
          List.mem_flatMap.mpr ⟨_, alookup_mem _ _ _ ho,
            List.mem_map.mpr ⟨_, alookup_mem _ _ _ hv, rfl⟩⟩
        exact List.mem_flatMap.mpr ⟨_, hl, List.mem_map.mpr ⟨v, hvv, rfl⟩⟩

theorem runHops_isSome_of_final (hops : HopMap) :
    ∀ (fuel m : Nat) (s : HopState), m ≤ fuel →
      hopFinal ((hopStep hops)^[m] s) → (runHops hops fuel s).isSome := by
  intro fuel
  induction fuel with
  | zero =>
    intro m s hm hf
    have hm0 : m = 0 := by omega
    subst hm0
    obtain ⟨tloc, n, o⟩ := s
    cases o with
    | none => simp [runHops]
    | some off => simp [hopFinal] at hf
  | succ fuel ih =>
    intro m s hm hf
    obtain ⟨tloc, n, o⟩ := s
    rcases o with _ | off
    · simp [runHops]
    · rcases m with _ | m2
      · simp [hopFinal] at hf
      · have hf2 : hopFinal ((hopStep hops)^[m2] (hopStep hops (tloc, n, some off))) := by
          rw [← Function.iterate_succ_apply]
          exact hf
        have hrec := ih m2 (hopStep hops (tloc, n, some off)) (by omega) hf2
        simpa [runHops] using hrec

theorem hop_acyclic_reaches_final (hops : HopMap) (s : HopState)
    (hacyc : ∀ i j : Nat, i < j → (hopStep hops)^[i] s = (hopStep hops)^[j] s →
      hopFinal ((hopStep hops)^[i] s)) :
    ∃ m, hopFinal ((hopStep hops)^[m] s) := by
  by_contra hno
  push_neg at hno
  have hmaps : ∀ k : Fin ((hopCandidates hops).toFinset.card + 1),
      (hopStep hops)^[k.1 + 1] s ∈ (hopCandidates hops).toFinset := by
    intro k
    have h1 : ¬ hopFinal ((hopStep hops)^[k.1] s) := hno _
    have h2 : ¬ hopFinal ((hopStep hops)^[k.1 + 1] s) := hno _
    rw [Function.iterate_succ_apply'] at h2 ⊢
    exact List.mem_toFinset.mpr (hopStep_mem_candidates hops _ h1 h2)
  have hcard : (hopCandidates hops).toFinset.card <
      (Finset.univ : Finset (Fin ((hopCandidates hops).toFinset.card + 1))).card := by
    simp
  obtain ⟨a, ha, b, hb, hab, heq⟩ :=
    Finset.exists_ne_map_eq_of_card_lt_of_maps_to hcard (fun a _ => hmaps a)
  rcases Nat.lt_or_ge a.1 b.1 with hlt | hge
  · exact hno _ (hacyc (a.1 + 1) (b.1 + 1) (by omega) heq)
  · have hlt2 : b.1 < a.1 := by
      rcases Nat.lt_or_ge b.1 a.1 with hx | hx
      · exact hx
      · exact absurd (Fin.ext (by omega)) hab
    exact hno _ (hacyc (b.1 + 1) (a.1 + 1) (by omega) heq.symm)

/-- A two-entry hop table whose hop chains form a cycle between (2,3) and
(2,4). -/
def cycHops : HopMap :=
  [(⟨2, 4⟩, [(("V1T0".toList), ("V1B0".toList))]),
   (⟨2, 3⟩, [(("V1B0".toList), ("V1T0".toList))])]

theorem cyc_run_none : ∀ fuel : Nat,
    runHops cycHops fuel (⟨2, 3⟩, ("V1T0".toList), some ((0 : Int), (1 : Int))) = none ∧
    runHops cycHops fuel (⟨2, 4⟩, ("V1B0".toList), some ((0 : Int), (-1 : Int))) = none := by
  intro fuel
  induction fuel with
  | zero => exact ⟨rfl, rfl⟩
  | succ fuel ih =>
    constructor
    · have hs : hopStep cycHops (⟨2, 3⟩, ("V1T0".toList), some ((0 : Int), (1 : Int))) =
          (⟨2, 4⟩, ("V1B0".toList), some ((0 : Int), (-1 : Int))) := by decide
      have hr : runHops cycHops (fuel + 1)
            (⟨2, 3⟩, ("V1T0".toList), some ((0 : Int), (1 : Int))) =
          runHops cycHops fuel
            (hopStep cycHops (⟨2, 3⟩, ("V1T0".toList), some ((0 : Int), (1 : Int)))) := rfl
      rw [hr, hs]
      exact ih.2
    · have hs : hopStep cycHops (⟨2, 4⟩, ("V1B0".toList), some ((0 : Int), (-1 : Int))) =
          (⟨2, 3⟩, ("V1T0".toList), some ((0 : Int), (1 : Int))) := by decide
      have hr : runHops cycHops (fuel + 1)
            (⟨2, 4⟩, ("V1B0".toList), some ((0 : Int), (-1 : Int))) =
          runHops cycHops fuel
            (hopStep cycHops (⟨2, 4⟩, ("V1B0".toList), some ((0 : Int), (-1 : Int)))) := rfl
      rw [hr, hs]
      exact ih.1

/-- C9: the embedded resolve_hops loop terminates, in the sense that some
fuel makes it return, on every input whose iterated hop lookup never
repeats a non-final state (acyclic); the source loop has no cycle or
step-count guard, and on the concrete cyclic hop table cycHops the loop
returns for no fuel at all, the embedded form of nontermination. -/
theorem c9_hop_termination :
    (∀ (hops : HopMap) (s : HopState),
      (∀ i j : Nat, i < j → (hopStep hops)^[i] s = (hopStep hops)^[j] s →
        hopFinal ((hopStep hops)^[i] s)) →
      ∃ fuel, (runHops hops fuel s).isSome)
    ∧ ∀ fuel : Nat,
        runHops cycHops fuel (⟨2, 3⟩, get_name_and_hop ("V1T0".toList)) = none := by
  constructor
  · intro hops s hacyc
    obtain ⟨m, hm⟩ := hop_acyclic_reaches_final hops s hacyc
    exact ⟨m, runHops_isSome_of_final hops m m s (le_refl m) hm⟩
  · intro fuel
    have h0 : get_name_and_hop ("V1T0".toList) =
        (("V1T0".toList), some ((0 : Int), (1 : Int))) := by decide
    rw [h0]
    exact (cyc_run_none fuel).1

theorem c9_hop_termination_witness :
    ∃ fuel, (runHops [] fuel ((⟨0, 0⟩ : Loc), ("Q".toList),
      (none : Option (Int × Int)))).isSome :=
  c9_hop_termination.1 [] (⟨0, 0⟩, ("Q".toList), none)
    (fun i j hij heq => by
      rw [Function.iterate_fixed (hopStep_final [] _ rfl)])

/-- C10: a location that holds observed routing features but is not a key
of the switchbox instance grid contributes nothing: the whole resolution
equals the resolution over only the grid locations, so such features raise
no error and add no entry to either the connection map or the hop map;
with an empty grid the resolution returns the two empty maps. -/
theorem c10_nongrid_locations_skipped (grid : List (Loc × List Char))
    (types : List (List Char × Switchbox)) (rd : List (Loc × List RouteEntry))
    (fuel : Nat) :
    (resolve_connections grid types rd fuel =
      resolveConnLoop grid types rd fuel
        ((sortLocs (rd.map (fun p => p.1))).filter (fun l => (alookup grid l).isSome))
        ([], []))
    ∧ resolve_connections [] types rd fuel = .ok ([], []) := by
  constructor
  · exact resolveConnLoop_filter grid types rd fuel _ _
  · rw [resolve_connections, resolveConnLoop_filter [] types rd fuel _ _]
    have hf : (sortLocs (rd.map (fun p => p.1))).filter
        (fun l => (alookup ([] : List (Loc × List Char)) l).isSome) = [] := by
      simp [alookup]
    rw [hf]
    rfl

/-- Embeds the MultiLocCellMapping namedtuple; the Python sets fromlocset
and pinnames are embedded as lists of their elements. -/
structure MultiLocCellMapping where
  typ : List Char
  fromlocset : List Loc
  toloc : Loc
  pinnames : List (List Char)
  deriving DecidableEq, Repr

/-- Selection condition of one mapping in remap_multiloc_loc: no pin name
given, or the pin name inside the pin-name filter, or the cell type equal
to the mapping type (a missing cell type never equals a type name). -/
def mlocPinOk (m : MultiLocCellMapping) (pinname : Option (List Char))
    (celltype : Option (List Char)) : Bool :=
  match pinname with
  | none => true
  | some p => decide (p ∈ m.pinnames) || celltype == some m.typ

/-- Embeds remap_multiloc_loc (lines 419-446): walk the multi-location
mappings in table order; the first mapping whose selection condition holds
and whose footprint contains the location rewrites it to the canonical
location of that mapping; otherwise the location is unchanged. -/
def remap_multiloc_loc (mlocs : List MultiLocCellMapping) (loc : Loc)
    (pinname : Option (List Char)) (celltype : Option (List Char)) : Loc :=
  match mlocs with
  | [] => loc
  | m :: ms =>
    if mlocPinOk m pinname celltype && decide (loc ∈ m.fromlocset) then m.toloc
    else remap_multiloc_loc ms loc pinname celltype

/-- The endpoint remap used for connections by resolve_multiloc_cells:
remap_multiloc_loc with a pin name and no cell type. -/
def remapPin (mlocs : List MultiLocCellMapping) (loc : Loc) (pin : List Char) : Loc :=
  remap_multiloc_loc mlocs loc (some pin) none

/-- The designconnections map after hop resolution: location to sink pin
name to absolute source pair. -/
abbrev ConnMap := List (Loc × List (List Char × (Loc × List Char)))

/-- Re-insertion of one connection entry of the loop body of
resolve_multiloc_cells (lines 462-465): the sink location is remapped
under the sink pin name, the source location under the source pin name. -/
def connInsOne (mlocs : List MultiLocCellMapping) (loc0 : Loc) (a : ConnMap)
    (q : List Char × (Loc × List Char)) : ConnMap :=
  nestedIns (remapPin mlocs loc0 q.1) q.1 ((remapPin mlocs q.2.1 q.2.2, q.2.2)) a

/-- Re-insertion of all entries of one location of the connection map. -/
def connInsGroup (mlocs : List MultiLocCellMapping) (a : ConnMap)
    (p : Loc × List (List Char × (Loc × List Char))) : ConnMap :=
  p.2.foldl (connInsOne mlocs p.1) a

/-- Embeds the connection rewrite of resolve_multiloc_cells (lines
461-466): every entry is re-inserted into a fresh map at the remapped sink
location, with the remapped source location, in iteration order. -/
def resolveMultilocConns (mlocs : List MultiLocCellMapping) (m : ConnMap) : ConnMap :=
  m.foldl (connInsGroup mlocs) []

/-- Embeds the configuration rewrite of resolve_multiloc_cells (lines
451-459): settings of cell types present in the multi-location table are
accumulated at the remapped location (called with no pin name, so only the
footprint decides); settings of other cell types are dropped from the new
map. -/
def resolveMultilocBels (mlocs : List MultiLocCellMapping) (bel : BelMap) : BelMap :=
  bel.foldl (fun acc p =>
    p.2.foldl (fun acc2 q =>
      if (mlocs.map (fun m => m.typ)).contains q.1 then
        belExtend acc2 (remap_multiloc_loc mlocs p.1 none (some q.1)) q.1 q.2
      else acc2) acc) []

/-- The object state resolve_multiloc_cells touches: both the
belinversions attribute that produce_verilog reads and the belinversion
attribute (no trailing s) that line 460 assigns. -/
structure F2BState where
  belinversions : BelMap
  belinversion : BelMap
  designconnections : ConnMap
  deriving DecidableEq, Repr

/-- Embeds resolve_multiloc_cells (lines 448-466) as a state transformer:
the rewritten configuration map is assigned to the attribute belinversion
(line 460 of the source spells it without the trailing s), leaving
belinversions untouched, and the rewritten connection map replaces
designconnections. -/
def resolve_multiloc_cells (mlocs : List MultiLocCellMapping) (st : F2BState) : F2BState :=
  { belinversions := st.belinversions,
    belinversion := resolveMultilocBels mlocs st.belinversions,
    designconnections := resolveMultilocConns mlocs st.designconnections }

/-- The configuration map handed onward to the structural-output stage:
produce_verilog (line 477) passes self.belinversions to VModule. -/
def produceVerilogBelinversions (st : F2BState) : BelMap := st.belinversions

/-- A one-mapping table for the C1 failing input: a multi-location cell
type with footprint locations (1,1) and (2,2) and canonical location
(1,1). -/
def mlocsC1 : List MultiLocCellMapping :=
  [{ typ := ("ASSP".toList), fromlocset := [⟨1, 1⟩, ⟨2, 2⟩], toloc := ⟨1, 1⟩,
     pinnames := [("P".toList)] }]

/-- The C1 failing input state: setting A recorded at the canonical
location and setting B at the other footprint location. -/
def stC1 : F2BState :=
  { belinversions := [(⟨1, 1⟩, [(("ASSP".toList), [("A".toList)])]),
                      (⟨2, 2⟩, [(("ASSP".toList), [("B".toList)])])],
    belinversion := [],
    designconnections := [] }

/-- C1 (code bug): after multi-location unification on a cell type with
settings at the two footprint locations (1,1) and (2,2), canonical
location (1,1), the configuration map handed onward to produce_verilog
still holds setting B at the non-canonical location (2,2) and lacks it at
(1,1); the correctly unified map, with exactly the settings of both source
locations at the canonical location and nothing at (2,2), is computed but
assigned to the attribute belinversion (line 460), which no later code
reads, so the unification of the configuration map is a dead store. -/
theorem c1_unification_dead_store :
    belLookup (produceVerilogBelinversions (resolve_multiloc_cells mlocsC1 stC1))
        ⟨2, 2⟩ ("ASSP".toList) = [("B".toList)] ∧
    belLookup (produceVerilogBelinversions (resolve_multiloc_cells mlocsC1 stC1))
        ⟨1, 1⟩ ("ASSP".toList) = [("A".toList)] ∧
    belLookup (resolve_multiloc_cells mlocsC1 stC1).belinversion
        ⟨1, 1⟩ ("ASSP".toList) = [("A".toList), ("B".toList)] ∧
    belLookup (resolve_multiloc_cells mlocsC1 stC1).belinversion
        ⟨2, 2⟩ ("ASSP".toList) = [] := by
  decide

/-- The C8 counterexample table: the canonical location (5,5) of the
second mapping lies inside the footprint of the first mapping, and the two
pin-name filters share the pin P. Such a table arises from a device whose
tile at (5,5) carries both an ASSP and a RAM cell while (6,6) carries the
RAM cell alone. -/
def mlocsC8 : List MultiLocCellMapping :=
  [{ typ := ("ASSP".toList), fromlocset := [⟨1, 1⟩, ⟨5, 5⟩], toloc := ⟨1, 1⟩,
     pinnames := [("P".toList)] },
   { typ := ("RAM1".toList), fromlocset := [⟨5, 5⟩, ⟨6, 6⟩], toloc := ⟨5, 5⟩,
     pinnames := [("P".toList)] }]

/-- The C8 counterexample connection map: one entry at (6,6). -/
def connC8 : ConnMap := [(⟨6, 6⟩, [(("P".toList), (⟨9, 9⟩, ("Q".toList)))])]

/-- C8 counterexample: on the table mlocsC8 the first unification pass
moves the entry at (6,6) to (5,5) and a second pass moves it again to
(1,1), so unification applied twice differs from unification applied
once, and the canonical location (5,5) is not a fixed point of the
location remapping. -/
theorem c8_idempotence_counterexample :
    resolveMultilocConns mlocsC8 (resolveMultilocConns mlocsC8 connC8) ≠
        resolveMultilocConns mlocsC8 connC8 ∧
      remapPin mlocsC8 ⟨5, 5⟩ ("P".toList) ≠ ⟨5, 5⟩ := by
  decide


/-- Outer key list of a two-level map. -/
def outerKeys {α : Type} (m : List (Loc × List (List Char × α))) : List Loc :=
  m.map (fun p => p.1)

/-- Inner key list of one inner map. -/
def innerKeys {α : Type} (inner : List (List Char × α)) : List (List Char) :=
  inner.map (fun q => q.1)

theorem outerKeys_nil {α : Type} : outerKeys ([] : List (Loc × List (List Char × α))) = [] := rfl

theorem outerKeys_cons {α : Type} (p : Loc × List (List Char × α))
    (rest : List (Loc × List (List Char × α))) :
    outerKeys (p :: rest) = p.1 :: outerKeys rest := rfl

theorem outerKeys_append {α : Type} (a b : List (Loc × List (List Char × α))) :
    outerKeys (a ++ b) = outerKeys a ++ outerKeys b := by
  simp [outerKeys]

theorem innerKeys_nil {α : Type} : innerKeys ([] : List (List Char × α)) = [] := rfl

theorem innerKeys_cons {α : Type} (q : List Char × α) (rest : List (List Char × α)) :
    innerKeys (q :: rest) = q.1 :: innerKeys rest := rfl

theorem innerKeys_append {α : Type} (a b : List (List Char × α)) :
    innerKeys (a ++ b) = innerKeys a ++ innerKeys b := by
  simp [innerKeys]

/-- Well-formedness that every map built with nestedIns enjoys: distinct
outer keys, distinct inner keys, no empty inner map. -/
def nestedWF {α : Type} (m : List (Loc × List (List Char × α))) : Prop :=
  (outerKeys m).Nodup ∧ ∀ p ∈ m, (innerKeys p.2).Nodup ∧ p.2 ≠ []

/-- One bound entry of a two-level map. -/
def entryMem {α : Type} (m : List (Loc × List (List Char × α))) (l : Loc)
    (k : List Char) (v : α) : Prop :=
  ∃ inner, (l, inner) ∈ m ∧ (k, v) ∈ inner

theorem innerIns_fresh {α : Type} (k : List Char) (v : α)
    (inner : List (List Char × α)) (h : ¬ k ∈ innerKeys inner) :
    innerIns k v inner = inner ++ [(k, v)] := by
  induction inner with
  | nil => rfl
  | cons p rest ih =>
    obtain ⟨k0, v0⟩ := p
    rw [innerKeys_cons] at h
    have h0 : ¬ k0 = k := by
      intro he
      subst he
      exact h (List.mem_cons_self _ _)
    have h1 : ¬ k ∈ innerKeys rest := fun he => h (List.mem_cons_of_mem _ he)
    simp [innerIns, h0, ih h1]

theorem nestedIns_fresh {α : Type} (loc : Loc) (k : List Char) (v : α)
    (m : List (Loc × List (List Char × α))) (h : ¬ loc ∈ outerKeys m) :
    nestedIns loc k v m = m ++ [(loc, [(k, v)])] := by
  induction m with
  | nil => rfl
  | cons p rest ih =>
    obtain ⟨l, inner⟩ := p
    rw [outerKeys_cons] at h
    have h0 : ¬ l = loc := by
      intro he
      subst he
      exact h (List.mem_cons_self _ _)
    have h1 : ¬ loc ∈ outerKeys rest := fun he => h (List.mem_cons_of_mem _ he)
    simp [nestedIns, h0, ih h1]

theorem nestedIns_last {α : Type} (loc : Loc) (k : List Char) (v : α)
    (acc : List (Loc × List (List Char × α))) (inner : List (List Char × α))
    (h : ¬ loc ∈ outerKeys acc) :
    nestedIns loc k v (acc ++ [(loc, inner)]) = acc ++ [(loc, innerIns k v inner)] := by
  induction acc with
  | nil => simp [nestedIns]
  | cons p rest ih =>
    obtain ⟨l, inner2⟩ := p
    rw [outerKeys_cons] at h
    have h0 : ¬ l = loc := by
      intro he
      subst he
      exact h (List.mem_cons_self _ _)
    have h1 : ¬ loc ∈ outerKeys rest := fun he => h (List.mem_cons_of_mem _ he)
    simp [nestedIns, h0, ih h1]

theorem innerIns_keysEq {α : Type} (k : List Char) (v : α)
    (inner : List (List Char × α)) :
    innerKeys (innerIns k v inner) =
      if k ∈ innerKeys inner then innerKeys inner else innerKeys inner ++ [k] := by
  induction inner with
  | nil => simp [innerIns, innerKeys_cons, innerKeys_nil]
  | cons p rest ih =>
    obtain ⟨k0, v0⟩ := p
    by_cases h0 : k0 = k
    · subst h0
      simp only [innerIns, if_pos rfl, innerKeys_cons, List.mem_cons, true_or, if_pos]
    · have h0s : ¬ k = k0 := fun he => h0 he.symm
      by_cases h1 : k ∈ innerKeys rest
      · rw [innerIns, if_neg h0, innerKeys_cons, innerKeys_cons, ih, if_pos h1,
          if_pos (List.mem_cons_of_mem _ h1)]
      · rw [innerIns, if_neg h0, innerKeys_cons, innerKeys_cons, ih, if_neg h1,
          if_neg (by simp [h0s, h1])]
        rfl

theorem nestedIns_outerKeys {α : Type} (loc : Loc) (k : List Char) (v : α)
    (m : List (Loc × List (List Char × α))) :
    outerKeys (nestedIns loc k v m) =
      if loc ∈ outerKeys m then outerKeys m else outerKeys m ++ [loc] := by
  induction m with
  | nil => simp [nestedIns, outerKeys_cons, outerKeys_nil]
  | cons p rest ih =>
    obtain ⟨l, inner⟩ := p
    by_cases h0 : l = loc
    · subst h0
      simp only [nestedIns, if_pos rfl, outerKeys_cons, List.mem_cons, true_or, if_pos]
    · have h0s : ¬ loc = l := fun he => h0 he.symm
      by_cases h1 : loc ∈ outerKeys rest
      · rw [nestedIns, if_neg h0, outerKeys_cons, outerKeys_cons, ih, if_pos h1,
          if_pos (List.mem_cons_of_mem _ h1)]
      · rw [nestedIns, if_neg h0, outerKeys_cons, outerKeys_cons, ih, if_neg h1,
          if_neg (by simp [h0s, h1])]
        rfl

theorem innerIns_ne_nil {α : Type} (k : List Char) (v : α)
    (inner : List (List Char × α)) : innerIns k v inner ≠ [] := by
  cases inner with
  | nil => simp [innerIns]
  | cons p rest =>
    obtain ⟨k0, v0⟩ := p
    by_cases h0 : k0 = k <;> simp [innerIns, h0]

theorem innerIns_nodup {α : Type} (k : List Char) (v : α)
    (inner : List (List Char × α)) (h : (innerKeys inner).Nodup) :
    (innerKeys (innerIns k v inner)).Nodup := by
  rw [innerIns_keysEq]
  by_cases hk : k ∈ innerKeys inner
  · simpa [hk]
  · have hdisj : List.Disjoint (innerKeys inner) [k] := by
      intro a ha hb
      simp at hb
      subst hb
      exact hk ha
    simp only [hk, if_false]
    exact List.Nodup.append h (List.nodup_singleton k) hdisj

theorem nestedIns_elem {α : Type} (loc : Loc) (k : List Char) (v : α)
    (m : List (Loc × List (List Char × α))) (p : Loc × List (List Char × α))
    (hp : p ∈ nestedIns loc k v m) :
    p ∈ m ∨ (∃ inner, p = (loc, innerIns k v inner) ∧ (loc, inner) ∈ m) ∨
      p = (loc, [(k, v)]) := by
  induction m with
  | nil =>
    simp [nestedIns] at hp
    exact Or.inr (Or.inr hp)
  | cons hd rest ih =>
    obtain ⟨l, inner2⟩ := hd
    by_cases h0 : l = loc
    · subst h0
      simp only [nestedIns, if_pos rfl] at hp
      rcases List.mem_cons.mp hp with he | hm
      · exact Or.inr (Or.inl ⟨inner2, he, by simp⟩)
      · exact Or.inl (List.mem_cons_of_mem _ hm)
    · simp only [nestedIns, if_neg h0] at hp
      rcases List.mem_cons.mp hp with he | hm
      · exact Or.inl (by simp [he])
      · rcases ih hm with h1 | h2 | h3
        · exact Or.inl (List.mem_cons_of_mem _ h1)
        · obtain ⟨inner3, he3, hm3⟩ := h2
          exact Or.inr (Or.inl ⟨inner3, he3, List.mem_cons_of_mem _ hm3⟩)
        · exact Or.inr (Or.inr h3)

theorem nestedIns_WF {α : Type} (loc : Loc) (k : List Char) (v : α)
    (m : List (Loc × List (List Char × α))) (h : nestedWF m) :
    nestedWF (nestedIns loc k v m) := by
  constructor
  · rw [nestedIns_outerKeys]
    by_cases hl : loc ∈ outerKeys m
    · simpa [hl] using h.1
    · have hdisj : List.Disjoint (outerKeys m) [loc] := by
        intro a ha hb
        simp at hb
        subst hb
        exact hl ha
      simp only [hl, if_false]
      exact List.Nodup.append h.1 (List.nodup_singleton loc) hdisj
  · intro p hp
    rcases nestedIns_elem loc k v m p hp with h1 | h2 | h3
    · exact h.2 p h1
    · obtain ⟨inner, he, hm⟩ := h2
      have hi := h.2 _ hm
      rw [he]
      exact ⟨innerIns_nodup k v inner hi.1, innerIns_ne_nil k v inner⟩
    · rw [h3]
      constructor
      · simp [innerKeys_cons, innerKeys_nil]
      · simp

theorem innerIns_entry {α : Type} (k : List Char) (v : α)
    (inner : List (List Char × α)) (k2 : List Char) (v2 : α)
    (h : (k2, v2) ∈ innerIns k v inner) :
    (k2 = k ∧ v2 = v) ∨ (k2, v2) ∈ inner := by
  induction inner with
  | nil =>
    simp [innerIns] at h
    exact Or.inl h
  | cons p rest ih =>
    obtain ⟨k0, v0⟩ := p
    by_cases h0 : k0 = k
    · subst h0
      simp only [innerIns, if_pos rfl] at h
      rcases List.mem_cons.mp h with he | hm
      · injection he with he1 he2
        exact Or.inl ⟨he1, he2⟩
      · exact Or.inr (List.mem_cons_of_mem _ hm)
    · simp only [innerIns, if_neg h0] at h
      rcases List.mem_cons.mp h with he | hm
      · exact Or.inr (by simp [he])
      · rcases ih hm with h1 | h2
        · exact Or.inl h1
        · exact Or.inr (List.mem_cons_of_mem _ h2)

theorem nestedIns_entry {α : Type} (loc : Loc) (k : List Char) (v : α)
    (m : List (Loc × List (List Char × α))) (l2 : Loc) (k2 : List Char) (v2 : α)
    (h : entryMem (nestedIns loc k v m) l2 k2 v2) :
    (l2 = loc ∧ k2 = k ∧ v2 = v) ∨ entryMem m l2 k2 v2 := by
  obtain ⟨inner2, hmem, hkv⟩ := h
  rcases nestedIns_elem loc k v m (l2, inner2) hmem with h1 | h2 | h3
  · exact Or.inr ⟨inner2, h1, hkv⟩
  · obtain ⟨inner3, he3, hm3⟩ := h2
    injection he3 with he3a he3b
    subst he3a
    subst he3b
    rcases innerIns_entry k v inner3 k2 v2 hkv with hx | hy
    · exact Or.inl ⟨rfl, hx.1, hx.2⟩
    · exact Or.inr ⟨inner3, hm3, hy⟩
  · injection h3 with h3a h3b
    subst h3a
    subst h3b
    simp at hkv
    exact Or.inl ⟨rfl, hkv.1, hkv.2⟩

theorem connFold_WF_inner (ml : List MultiLocCellMapping) (loc0 : Loc) :
    ∀ (qs : List (List Char × (Loc × List Char))) (acc : ConnMap), nestedWF acc →
      nestedWF (qs.foldl (connInsOne ml loc0) acc) := by
  intro qs
  induction qs with
  | nil =>
    intro acc h
    simpa using h
  | cons q qs ih =>
    intro acc h
    rw [List.foldl_cons]
    exact ih _ (by simp only [connInsOne]; exact nestedIns_WF _ _ _ _ h)

theorem resolveMultilocConns_WF (ml : List MultiLocCellMapping) (m : ConnMap) :
    nestedWF (resolveMultilocConns ml m) := by
  have main : ∀ (mm acc : ConnMap), nestedWF acc →
      nestedWF (mm.foldl (connInsGroup ml) acc) := by
    intro mm
    induction mm with
    | nil =>
      intro acc h
      simpa using h
    | cons p rest ih =>
      intro acc h
      rw [List.foldl_cons]
      exact ih _ (by simp only [connInsGroup]; exact connFold_WF_inner ml p.1 p.2 acc h)
  have hnil : nestedWF ([] : ConnMap) := ⟨List.nodup_nil, by simp⟩
  rw [resolveMultilocConns]
  exact main m [] hnil

theorem connFold_entry_inner (ml : List MultiLocCellMapping) (loc0 : Loc) :
    ∀ (qs : List (List Char × (Loc × List Char))) (acc : ConnMap) (l : Loc)
      (k : List Char) (v : Loc × List Char),
      entryMem (qs.foldl (connInsOne ml loc0) acc) l k v →
      entryMem acc l k v ∨ ∃ q, q ∈ qs ∧ l = remapPin ml loc0 q.1 ∧ k = q.1 ∧
        v = (remapPin ml q.2.1 q.2.2, q.2.2) := by
  intro qs
  induction qs with
  | nil =>
    intro acc l k v h
    exact Or.inl h
  | cons q qs ih =>
    intro acc l k v h
    rw [List.foldl_cons] at h
    rcases ih _ _ _ _ h with hacc | ⟨q2, hq2, h2⟩
    · simp only [connInsOne] at hacc
      rcases nestedIns_entry _ _ _ _ _ _ _ hacc with ⟨he1, he2, he3⟩ | hm
      · exact Or.inr ⟨q, by simp, he1, he2, he3⟩
      · exact Or.inl hm
    · exact Or.inr ⟨q2, List.mem_cons_of_mem _ hq2, h2⟩

theorem connFold_entry_outer (ml : List MultiLocCellMapping) :
    ∀ (mm acc : ConnMap) (l : Loc) (k : List Char) (v : Loc × List Char),
      entryMem (mm.foldl (connInsGroup ml) acc) l k v →
      entryMem acc l k v ∨ ∃ (loc0 : Loc) (q : List Char × (Loc × List Char)),
        l = remapPin ml loc0 q.1 ∧ k = q.1 ∧ v = (remapPin ml q.2.1 q.2.2, q.2.2) := by
  intro mm
  induction mm with
  | nil =>
    intro acc l k v h
    exact Or.inl h
  | cons p rest ih =>
    intro acc l k v h
    rw [List.foldl_cons] at h
    rcases ih _ _ _ _ h with hacc | hshape
    · simp only [connInsGroup] at hacc
      rcases connFold_entry_inner ml p.1 p.2 acc l k v hacc with h1 | ⟨q, hq, h2⟩
      · exact Or.inl h1
      · exact Or.inr ⟨p.1, q, h2⟩
    · exact Or.inr hshape

theorem resolveMultilocConns_stable (ml : List MultiLocCellMapping) (m : ConnMap)
    (hp : ∀ (loc : Loc) (pin : List Char),
      remapPin ml (remapPin ml loc pin) pin = remapPin ml loc pin) :
    ∀ p ∈ resolveMultilocConns ml m, ∀ q ∈ p.2,
      remapPin ml p.1 q.1 = p.1 ∧ remapPin ml q.2.1 q.2.2 = q.2.1 := by
  intro p hpm q hq
  have hent : entryMem (resolveMultilocConns ml m) p.1 q.1 q.2 := ⟨p.2, hpm, hq⟩
  rw [resolveMultilocConns] at hent
  rcases connFold_entry_outer ml m [] p.1 q.1 q.2 hent with h1 | ⟨l0, q0, he1, he2, he3⟩
  · obtain ⟨inner, hmem, hkv⟩ := h1
    simp at hmem
  · constructor
    · rw [he1, he2]
      exact hp l0 q0.1
    · rw [he3]
      simpa using hp q0.2.1 q0.2.2

theorem connGroup_rebuild (ml : List MultiLocCellMapping) (loc : Loc) :
    ∀ (qs pre : List (List Char × (Loc × List Char))) (acc : ConnMap),
      ¬ loc ∈ outerKeys acc →
      (innerKeys (pre ++ qs)).Nodup →
      (∀ q ∈ qs, remapPin ml loc q.1 = loc ∧ remapPin ml q.2.1 q.2.2 = q.2.1) →
      qs.foldl (connInsOne ml loc) (acc ++ [(loc, pre)]) = acc ++ [(loc, pre ++ qs)] := by
  intro qs
  induction qs with
  | nil =>
    intro pre acc h1 h2 h3
    simp
  | cons q qs ih =>
    intro pre acc h1 h2 h3
    obtain ⟨hq1, hq2⟩ := h3 q (by simp)
    have hfresh : ¬ q.1 ∈ innerKeys pre := by
      rw [innerKeys_append, innerKeys_cons] at h2
      have hd := List.disjoint_of_nodup_append h2
      intro hmem
      exact hd hmem (by simp)
    have hstep : connInsOne ml loc (acc ++ [(loc, pre)]) q = acc ++ [(loc, pre ++ [q])] := by
      simp only [connInsOne]
      rw [hq1, hq2, nestedIns_last _ _ _ _ _ h1, innerIns_fresh _ _ _ hfresh]
    rw [List.foldl_cons, hstep]
    have hres := ih (pre ++ [q]) acc h1 (by simpa [List.append_assoc] using h2)
      (fun q2 hq2b => h3 q2 (List.mem_cons_of_mem _ hq2b))
    rw [hres]
    simp

theorem conn_rebuild (ml : List MultiLocCellMapping) :
    ∀ (mm acc : ConnMap),
      (outerKeys acc ++ outerKeys mm).Nodup →
      (∀ p ∈ mm, (innerKeys p.2).Nodup ∧ p.2 ≠ []) →
      (∀ p ∈ mm, ∀ q ∈ p.2, remapPin ml p.1 q.1 = p.1 ∧
        remapPin ml q.2.1 q.2.2 = q.2.1) →
      mm.foldl (connInsGroup ml) acc = acc ++ mm := by
  intro mm
  induction mm with
  | nil =>
    intro acc h1 h2 h3
    simp
  | cons p rest ih =>
    intro acc h1 h2 h3
    obtain ⟨loc, qs⟩ := p
    obtain ⟨hnd, hne⟩ := h2 (loc, qs) (by simp)
    have hst : ∀ q ∈ qs, remapPin ml loc q.1 = loc ∧ remapPin ml q.2.1 q.2.2 = q.2.1 :=
      fun q hq => h3 (loc, qs) (by simp) q hq
    have hlocacc : ¬ loc ∈ outerKeys acc := by
      have hd := List.disjoint_of_nodup_append h1
      intro hmem
      exact hd hmem (by rw [outerKeys_cons]; simp)
    rcases qs with _ | ⟨q0, qrest⟩
    · exact absurd rfl hne
    · obtain ⟨hq01, hq02⟩ := hst q0 (by simp)
      have hfirst : connInsOne ml loc acc q0 = acc ++ [(loc, [q0])] := by
        simp only [connInsOne]
        rw [hq01, hq02, nestedIns_fresh _ _ _ _ hlocacc]
      have hgrp : connInsGroup ml acc (loc, q0 :: qrest) = acc ++ [(loc, q0 :: qrest)] := by
        simp only [connInsGroup]
        rw [List.foldl_cons, hfirst]
        have hres := connGroup_rebuild ml loc qrest [q0] acc hlocacc
          (by simpa using hnd) (fun q hq => hst q (List.mem_cons_of_mem _ hq))
        rw [hres]
        rfl
      rw [List.foldl_cons, hgrp]
      have hacc2 : (outerKeys (acc ++ [(loc, q0 :: qrest)]) ++ outerKeys rest).Nodup := by
        simpa [outerKeys_append, outerKeys_cons, outerKeys_nil, List.append_assoc] using h1
      have hres2 := ih (acc ++ [(loc, q0 :: qrest)]) hacc2
        (fun p2 hp2 => h2 p2 (List.mem_cons_of_mem _ hp2))
        (fun p2 hp2 => h3 p2 (List.mem_cons_of_mem _ hp2))
      rw [hres2]
      simp

/-- C8 (amended): multi-location unification is idempotent on the
connection map whenever the per-pin location remapping is itself
idempotent, which is exactly the condition that every canonical location
reachable under a pin name is a fixed point of the remapping; the
counterexample above shows the code does not guarantee this condition for
every device table, so the amendment adds it as a hypothesis. -/
theorem c8_idempotence_amended (ml : List MultiLocCellMapping) (m : ConnMap)
    (hp : ∀ (loc : Loc) (pin : List Char),
      remapPin ml (remapPin ml loc pin) pin = remapPin ml loc pin) :
    resolveMultilocConns ml (resolveMultilocConns ml m) = resolveMultilocConns ml m := by
  have hwf := resolveMultilocConns_WF ml m
  have hstab := resolveMultilocConns_stable ml m hp
  have hres := conn_rebuild ml (resolveMultilocConns ml m) []
    (by simpa [outerKeys_nil] using hwf.1) hwf.2 hstab
  calc resolveMultilocConns ml (resolveMultilocConns ml m)
      = (resolveMultilocConns ml m).foldl (connInsGroup ml) [] := rfl
    _ = [] ++ resolveMultilocConns ml m := hres
    _ = resolveMultilocConns ml m := by simp

theorem c8_idempotence_amended_witness :
    resolveMultilocConns [] (resolveMultilocConns [] connC8) =
      resolveMultilocConns [] connC8 :=
  c8_idempotence_amended [] connC8 (fun _ _ => rfl)
